import Mathlib

/-!
Verification of the REACT-CPP-MONGO value-marshalling layer and dispatch
bridge against its specification.

The development shallowly embeds the code of `src/connection.cpp`,
`include/connection.h` and `include/deferred.h`:

* `Value` models `Variant::Value` (the DynamicValue of the spec): a tagged
  union over null / bool / int / double / string / vector / map.  Mappings
  are carried as association lists in caller insertion order; the embedding
  of `std::map<std::string, Variant::Value>` (`stdMap` below) produces the
  sorted, duplicate-free view the C++ code iterates over.
* `BSONElement` / `BSONObj` model the driver's wire documents as built by
  `mongo::BSONObjBuilder` / `mongo::BSONArrayBuilder`: a document is the
  finalized list of (field name, element) pairs in append order, and an
  array builder names its fields "0", "1", ... as appends happen.
* `Connection.convert` embeds `Connection::convert(const Variant::Value&)`
  (encode) and `Connection.convertBson` embeds
  `Connection::convert(const mongo::BSONObj&)` (decode).
* `Deferred` embeds the reaction slots of `Deferred<...>` from deferred.h,
  with the private `success` / `failure` / `complete` resolution methods
  returning the trace of fired reactions.
* The worker closures of `Connection::query` / `insert` / `update` /
  `remove` are embedded as functions from a driver behaviour (does the
  blocking call throw, what does `getLastError` return, what cursor comes
  back) to the observable trace of the closure: the callback invocations
  scheduled on the master thread, whether `getLastError` was fetched, and
  whether an exception escaped.
-/

namespace ReactMongo

/-- Model of `Variant::Value` (libvariant), the DynamicValue of the spec.
Constructors mirror the type tags the converter switches on:
`ValueNullType`, `ValueBoolType`, `ValueIntType`, `ValueDoubleType`,
`ValueStringType`, `ValueVectorType`, `ValueMapType`.  The double payload
is carried as its raw 64 bits; the converter never inspects it.  A map is
carried as an association list in the order the caller produced it. -/
inductive Value where
  | null : Value
  | bool (b : Bool) : Value
  | int (n : Int) : Value
  | double (bits : UInt64) : Value
  | string (s : String) : Value
  | seq (items : List Value) : Value
  | map (members : List (String × Value)) : Value

/-- Model of `mongo::BSONElement`: one field value inside a BSON document.
Constructors mirror the element types the decoder switches on
(`mongo::String`, `mongo::Object`, `mongo::Array`, `mongo::jstNULL`,
`mongo::NumberInt`) plus the wire types the code leaves to its `default`
branch (booleans and doubles, which this library never emits). -/
inductive BSONElement where
  | bstring (s : String) : BSONElement
  | bobject (fields : List (String × BSONElement)) : BSONElement
  | barray (fields : List (String × BSONElement)) : BSONElement
  | bnull : BSONElement
  | bint (n : Int) : BSONElement
  | bbool (b : Bool) : BSONElement
  | bdouble (bits : UInt64) : BSONElement

/-- Model of a finalized `mongo::BSONObj`: the list of named fields in the
order the builder appended them. -/
abbrev BSONObj := List (String × BSONElement)

/-- One `std::map` insertion-or-assignment (`operator[]` style: an existing
binding for the key is overwritten) into a key-sorted association list. -/
def insertMember (k : String) (v : Value) : List (String × Value) → List (String × Value)
  | [] => [(k, v)]
  | (k', v') :: rest =>
    if k < k' then (k, v) :: (k', v') :: rest
    else if k = k' then (k, v) :: rest
    else (k', v') :: insertMember k v rest

/-- Feed a list of pairs one by one into a `std::map` (later assignments to
the same key win). -/
def stdMapFrom (acc : List (String × Value)) : List (String × Value) → List (String × Value)
  | [] => acc
  | (k, v) :: rest => stdMapFrom (insertMember k v acc) rest

/-- The sorted, duplicate-free `std::map<std::string, Variant::Value>` view
of an association list: what `std::map<std::string, Variant::Value>
members = value` yields in `Connection::convert`. -/
def stdMap (xs : List (String × Value)) : List (String × Value) :=
  stdMapFrom [] xs

theorem sizeOf_insertMember (k : String) (v : Value) (l : List (String × Value)) :
    sizeOf (insertMember k v l) ≤ 2 + sizeOf k + sizeOf v + sizeOf l := by
  induction l with
  | nil => simp [insertMember]; omega
  | cons p rest ih =>
    obtain ⟨k', v'⟩ := p
    simp only [insertMember]
    split
    · simp; omega
    · split
      · simp; omega
      · simp; omega

theorem sizeOf_stdMapFrom (acc xs : List (String × Value)) :
    sizeOf (stdMapFrom acc xs) + 1 ≤ sizeOf acc + sizeOf xs := by
  induction xs generalizing acc with
  | nil => simp [stdMapFrom]
  | cons p rest ih =>
    obtain ⟨k, v⟩ := p
    simp only [stdMapFrom]
    calc sizeOf (stdMapFrom (insertMember k v acc) rest) + 1
        ≤ sizeOf (insertMember k v acc) + sizeOf rest := ih _
      _ ≤ (2 + sizeOf k + sizeOf v + sizeOf acc) + sizeOf rest :=
            Nat.add_le_add_right (sizeOf_insertMember k v acc) _
      _ ≤ sizeOf acc + sizeOf ((k, v) :: rest) := by simp; omega

theorem sizeOf_stdMap (xs : List (String × Value)) :
    sizeOf (stdMap xs) ≤ sizeOf xs := by
  have h := sizeOf_stdMapFrom [] xs
  simp only [stdMap]
  simp at h
  omega

namespace Connection

mutual

/-- Embedding of `Connection::convert(const Variant::Value&)`
(src/connection.cpp lines 92-152): turn a `Variant::Value` into the BSON
object the driver receives.  A vector becomes a `BSONArrayBuilder` run over
its items, a map becomes a `BSONObjBuilder` run over its `std::map` view,
and any other top-level value yields the empty `mongo::BSONObj()`. -/
def convert : Value → BSONObj
  | .seq items => convertItems items 0
  | .map members => convertMembers (stdMap members)
  | _ => []
termination_by v => sizeOf v
decreasing_by
  all_goals try have h := sizeOf_stdMap members
  all_goals simp
  all_goals omega

/-- The `for (auto item : items)` loop of the vector branch: the
`BSONArrayBuilder` names each successfully appended element with its
running index, and the `default: break` of the switch skips booleans and
doubles without consuming an index. -/
def convertItems : List Value → Nat → BSONObj
  | [], _ => []
  | item :: rest, i =>
    match item with
    | .null => (toString i, .bnull) :: convertItems rest (i + 1)
    | .int n => (toString i, .bint n) :: convertItems rest (i + 1)
    | .string s => (toString i, .bstring s) :: convertItems rest (i + 1)
    | .seq items => (toString i, .bobject (convert (.seq items))) :: convertItems rest (i + 1)
    | .map members => (toString i, .bobject (convert (.map members))) :: convertItems rest (i + 1)
    | .bool _ => convertItems rest i
    | .double _ => convertItems rest i
termination_by items _ => sizeOf items

/-- The `for (auto member : members)` loop of the map branch: the switch
has cases for null, int, string, vector and map only, so a boolean or
double member produces no field at all. -/
def convertMembers : List (String × Value) → BSONObj
  | [] => []
  | (key, v) :: rest =>
    match v with
    | .null => (key, .bnull) :: convertMembers rest
    | .int n => (key, .bint n) :: convertMembers rest
    | .string s => (key, .bstring s) :: convertMembers rest
    | .seq items => (key, .bobject (convert (.seq items))) :: convertMembers rest
    | .map members => (key, .bobject (convert (.map members))) :: convertMembers rest
    | .bool _ => convertMembers rest
    | .double _ => convertMembers rest
termination_by members => sizeOf members

end

end Connection

/-- Does a list of field names look like contiguous zero-based array
indices starting at `i`? -/
def indexKeysFrom : List String → Nat → Bool
  | [], _ => true
  | k :: rest, i => k == toString i && indexKeysFrom rest (i + 1)

/-- Model of `mongo::BSONObj::couldBeArray()`, the driver predicate the
decoder dispatches on.  The driver is an external collaborator, so this is
modelled from the spec's boundary description (spec section 4.1): the wire
document "exposes contiguous zero-based integer keys". -/
def couldBeArray (o : BSONObj) : Bool :=
  indexKeysFrom (o.map Prod.fst) 0

namespace Connection

mutual

/-- Embedding of `Connection::convert(const mongo::BSONObj&)`
(src/connection.cpp lines 160-215): turn a BSON object back into a
`Variant::Value`.  An object that could be an array becomes a vector of
its decoded elements in document order; any other object becomes a
`std::map` keyed by field name. -/
def convertBson (o : BSONObj) : Value :=
  if couldBeArray o then .seq (decodeItems o)
  else .map (decodeMembers o [])
termination_by (sizeOf o, 1)

/-- The array branch: `result.push_back(convertElement(element))` for each
element, in iteration order. -/
def decodeItems : BSONObj → List Value
  | [] => []
  | (_, e) :: rest => convertElement e :: decodeItems rest
termination_by o => (sizeOf o, 0)

/-- The map branch: `result[element.fieldName()] = convertElement(element)`
for each element, in iteration order, into a `std::map`. -/
def decodeMembers : BSONObj → List (String × Value) → List (String × Value)
  | [], acc => acc
  | (k, e) :: rest, acc => decodeMembers rest (insertMember k (convertElement e) acc)
termination_by o _ => (sizeOf o, 0)

/-- The `convertElement` lambda of `Connection::convert(const
mongo::BSONObj&)`: decode one BSON element by its type tag; the `default`
branch returns a default-constructed (null) `Variant::Value{}` for
unsupported wire types. -/
def convertElement : BSONElement → Value
  | .bstring s => .string s
  | .bobject fields => convertBson fields
  | .barray fields => convertBson fields
  | .bnull => .null
  | .bint n => .int n
  | .bbool _ => Value.null
  | .bdouble _ => Value.null
termination_by e => (sizeOf e, 0)

end

end Connection

mutual

/-- Canonical form of a `Value` under the spec's semantic equality
(spec section 8, round-trip: "scalar equality per tag; element-wise
equality for composites; mapping key order ignored, sequence order
preserved"): scalars and sequence order are kept, every mapping is
replaced by its `std::map` view (key-sorted, later duplicate wins). -/
def normalize : Value → Value
  | .seq items => .seq (normalizeItems items)
  | .map members => .map (stdMap (normalizeMembers members))
  | v => v
termination_by v => sizeOf v

/-- Pointwise normalization of a vector's items. -/
def normalizeItems : List Value → List Value
  | [] => []
  | v :: rest => normalize v :: normalizeItems rest
termination_by items => sizeOf items

/-- Pointwise normalization of a mapping's values. -/
def normalizeMembers : List (String × Value) → List (String × Value)
  | [] => []
  | (k, v) :: rest => (k, normalize v) :: normalizeMembers rest
termination_by members => sizeOf members

end

/-- The spec's semantic equality on dynamic values: equal up to mapping
key order (and duplicate-key overwriting), with sequence order and all
scalars significant. -/
def semEq (a b : Value) : Prop := normalize a = normalize b

mutual

/-- The domain on which the encode/decode round trip can hold on this
code: no booleans or doubles anywhere (the converter's switches drop
them), and no mapping whose `std::map` view presents contiguous zero-based
integer keys "0", "1", ... (in particular no empty mapping), since such a
mapping encodes to a wire document that `couldBeArray` claims back as an
array. -/
def roundtrippable : Value → Bool
  | .null => true
  | .int _ => true
  | .string _ => true
  | .bool _ => false
  | .double _ => false
  | .seq items => roundtrippableItems items
  | .map members =>
    !indexKeysFrom ((stdMap members).map Prod.fst) 0 && roundtrippableMembers members
termination_by v => sizeOf v

/-- All items of a vector are round-trippable. -/
def roundtrippableItems : List Value → Bool
  | [] => true
  | v :: rest => roundtrippable v && roundtrippableItems rest
termination_by items => sizeOf items

/-- All values of a mapping are round-trippable. -/
def roundtrippableMembers : List (String × Value) → Bool
  | [] => true
  | (_, v) :: rest => roundtrippable v && roundtrippableMembers rest
termination_by members => sizeOf members

end

/-- Whether a value's top-level tag is vector or map: the two tags
`Connection::convert(const Variant::Value&)` handles at the root. -/
def Value.isComposite : Value → Bool
  | .seq _ => true
  | .map _ => true
  | _ => false

/-- One reaction observed firing on a `Deferred`. -/
inductive Fired (α : Type) where
  | success (payload : α) : Fired α
  | failure (error : String) : Fired α
  | complete : Fired α

/-- Is this fired reaction a success reaction? -/
def Fired.isSuccess : Fired α → Bool
  | .success _ => true
  | _ => false

/-- Is this fired reaction a failure reaction? -/
def Fired.isFailure : Fired α → Bool
  | .failure _ => true
  | _ => false

/-- Is this fired reaction a completion reaction? -/
def Fired.isComplete : Fired α → Bool
  | .complete => true
  | _ => false

/-- Model of `Deferred<Arguments...>` from include/deferred.h: the three
reaction slots `_successCallback`, `_failureCallback`, `_completeCallback`.
A slot is modelled by whether a callback is installed in it (the C++ code
only ever tests the `std::function` for truth before invoking it); the
resolution methods below return the trace of reactions fired, in order. -/
structure Deferred (α : Type) where
  successCallback : Bool
  failureCallback : Bool
  completeCallback : Bool

/-- `Deferred::requireStatus()`: status is only relevant if a success or
failure callback has been installed. -/
def Deferred.requireStatus (d : Deferred α) : Bool :=
  d.successCallback || d.failureCallback

/-- `Deferred::success(Arguments...)` (deferred.h lines 57-62): run the
success callback if installed, then the complete callback if installed. -/
def Deferred.success (d : Deferred α) (args : α) : List (Fired α) :=
  (if d.successCallback then [.success args] else [])
    ++ (if d.completeCallback then [.complete] else [])

/-- `Deferred::failure(const char*)` (deferred.h lines 69-74): run the
failure callback if installed, then the complete callback if installed. -/
def Deferred.failure (d : Deferred α) (error : String) : List (Fired α) :=
  (if d.failureCallback then [.failure error] else [])
    ++ (if d.completeCallback then [.complete] else [])

/-- `Deferred::complete()` (deferred.h lines 80-84): run the complete
callback if installed. -/
def Deferred.complete (d : Deferred α) : List (Fired α) :=
  if d.completeCallback then [.complete] else []

/-- A resolved outcome carried from the worker to the notifier. -/
inductive Resolution (α : Type) where
  | success (payload : α) : Resolution α
  | failure (error : String) : Resolution α

/-- Deliver a resolved outcome to a `Deferred` on the notifier. -/
def Resolution.deliver : Resolution α → Deferred α → List (Fired α)
  | .success a, d => d.success a
  | .failure e, d => d.failure e

namespace Connection

/-- Behaviour of the driver during one write call made from the worker:
whether the blocking call throws a `mongo::DBException` (with the given
`toString()` text), and what `_mongo.getLastError()` would subsequently
return (empty string = no error). -/
structure WriteBehavior where
  throws : Option String
  lastError : String

/-- Observable outcome of one worker write closure: the BSON documents
passed to the driver, the callback invocations scheduled on `_master` in
order, whether `getLastError` was fetched, and whether an exception
escaped the closure into the worker thread. -/
structure WriteTrace where
  sent : List BSONObj
  callbacks : List (Option String)
  fetchedLastError : Bool
  escaped : Bool

/-- Embedding of the worker closure of `Connection::insert` with callback
(src/connection.cpp lines 328-373): run the insert, then fetch the last
error; schedule `callback(NULL)` if it is empty and `callback(error)`
otherwise; a thrown `DBException` skips the last-error fetch and schedules
`callback(exception.toString())`. -/
def insertWorker (collection : String) (document : Value) (b : WriteBehavior) : WriteTrace :=
  match b.throws with
  | none =>
    if b.lastError = ""
    then { sent := [convert document], callbacks := [none],
           fetchedLastError := true, escaped := false }
    else { sent := [convert document], callbacks := [some b.lastError],
           fetchedLastError := true, escaped := false }
  | some msg =>
    { sent := [convert document], callbacks := [some msg],
      fetchedLastError := false, escaped := false }

/-- Embedding of the worker closure of the fire-and-forget
`Connection::insert` (src/connection.cpp lines 406-427): run the insert;
a thrown `DBException` is swallowed; no callback, no last-error fetch. -/
def insertWorkerNoCallback (collection : String) (document : Value) (b : WriteBehavior) : WriteTrace :=
  match b.throws with
  | none =>
    { sent := [convert document], callbacks := [],
      fetchedLastError := false, escaped := false }
  | some _ =>
    { sent := [convert document], callbacks := [],
      fetchedLastError := false, escaped := false }

/-- Embedding of the worker closure of `Connection::update` with callback
(src/connection.cpp lines 463-511). -/
def updateWorker (collection : String) (query document : Value)
    (upsert multi : Bool) (b : WriteBehavior) : WriteTrace :=
  match b.throws with
  | none =>
    if b.lastError = ""
    then { sent := [convert query, convert document], callbacks := [none],
           fetchedLastError := true, escaped := false }
    else { sent := [convert query, convert document], callbacks := [some b.lastError],
           fetchedLastError := true, escaped := false }
  | some msg =>
    { sent := [convert query, convert document], callbacks := [some msg],
      fetchedLastError := false, escaped := false }

/-- Embedding of the worker closure of the fire-and-forget
`Connection::update` (src/connection.cpp lines 594-618). -/
def updateWorkerNoCallback (collection : String) (query document : Value)
    (upsert multi : Bool) (b : WriteBehavior) : WriteTrace :=
  match b.throws with
  | none =>
    { sent := [convert query, convert document], callbacks := [],
      fetchedLastError := false, escaped := false }
  | some _ =>
    { sent := [convert query, convert document], callbacks := [],
      fetchedLastError := false, escaped := false }

/-- Embedding of the worker closure of `Connection::remove` with callback
(src/connection.cpp lines 712-757). -/
def removeWorker (collection : String) (query : Value) (limitToOne : Bool)
    (b : WriteBehavior) : WriteTrace :=
  match b.throws with
  | none =>
    if b.lastError = ""
    then { sent := [convert query], callbacks := [none],
           fetchedLastError := true, escaped := false }
    else { sent := [convert query], callbacks := [some b.lastError],
           fetchedLastError := true, escaped := false }
  | some msg =>
    { sent := [convert query], callbacks := [some msg],
      fetchedLastError := false, escaped := false }

/-- Embedding of the worker closure of the fire-and-forget
`Connection::remove` (src/connection.cpp lines 792-813). -/
def removeWorkerNoCallback (collection : String) (query : Value) (limitToOne : Bool)
    (b : WriteBehavior) : WriteTrace :=
  match b.throws with
  | none =>
    { sent := [convert query], callbacks := [],
      fetchedLastError := false, escaped := false }
  | some _ =>
    { sent := [convert query], callbacks := [],
      fetchedLastError := false, escaped := false }

/-- Behaviour of `_mongo.query` during one query call made from the
worker: a null cursor (the driver's non-exception connection-failure
signal), a live cursor yielding the given documents, or a thrown
`DBException`. -/
inductive QueryBehavior where
  | nullCursor : QueryBehavior
  | cursor (docs : List BSONObj) : QueryBehavior
  | throws (msg : String) : QueryBehavior

/-- Observable outcome of the worker closure of `Connection::query`: the
BSON query sent, the `(result, error)` callback invocations scheduled on
`_master`, how many documents were read off the cursor, and whether an
exception escaped the closure. -/
structure QueryTrace where
  sent : List BSONObj
  callbacks : List (Value × Option String)
  docsRead : Nat
  escaped : Bool

/-- Embedding of the worker closure of `Connection::query`
(src/connection.cpp lines 243-302): a null cursor schedules
`callback(Variant::Value{}, "Unspecified connection error")` and reads
nothing; a live cursor is drained into a vector of decoded documents and
the callback is scheduled with it and no error; a thrown `DBException`
schedules `callback(Variant::Value{}, exception.toString())`. -/
def queryWorker (collection : String) (query : Value) (b : QueryBehavior) : QueryTrace :=
  match b with
  | .nullCursor =>
    { sent := [convert query],
      callbacks := [(Value.null, some "Unspecified connection error")],
      docsRead := 0, escaped := false }
  | .cursor docs =>
    { sent := [convert query],
      callbacks := [(.seq (docs.map convertBson), none)],
      docsRead := docs.length, escaped := false }
  | .throws msg =>
    { sent := [convert query],
      callbacks := [(Value.null, some msg)],
      docsRead := 0, escaped := false }

/-- Behaviour of the driver's `runCommand` primitive: it either fills the
output document or throws. -/
inductive CommandBehavior where
  | result (doc : BSONObj) : CommandBehavior
  | throws (msg : String) : CommandBehavior

/-- Is the `ok` field of a command result document the integer zero? -/
def okFieldIsZero (doc : BSONObj) : Bool :=
  match doc.lookup "ok" with
  | some (.bint n) => n == 0
  | _ => false

/-- The `error` string field of a command result document, or the empty
string when absent. -/
def errorFieldOf (doc : BSONObj) : String :=
  match doc.lookup "error" with
  | some (.bstring s) => s
  | _ => ""

/-- Outcome of the runCommand worker closure: the encoded command document
handed to the driver, and the resolution scheduled on the notifier. -/
structure CommandTrace where
  sent : List BSONObj
  resolution : Resolution Value

/-- Modelled from the spec: `Connection::runCommand` is absent from src/
(only the `DeferredCommand` alias in include/deferred.h refers to it).
Spec section 6 gives the driver primitive `runCommand(database,
WireDocument, out WireDocument&) raises DriverException`, and sections 4.3
and 8 give its resolution: a thrown driver exception resolves the
Deferred as a failure with the exception text, a result document with
`ok:0` resolves it as a failure carrying the result's error message, and
any other result resolves it as a success carrying the decoded result
value. -/
def runCommand (database : String) (command : Value) (b : CommandBehavior) : CommandTrace :=
  match b with
  | .throws msg => { sent := [convert command], resolution := .failure msg }
  | .result doc =>
    if okFieldIsZero doc
    then { sent := [convert command], resolution := .failure (errorFieldOf doc) }
    else { sent := [convert command], resolution := .success (convertBson doc) }

/-- Per-element view of the two switches of `Connection::convert(const
Variant::Value&)`: the BSON element appended for one item or member value,
or `none` for the types both switches drop (booleans and doubles). -/
def encodeElement (v : Value) : Option BSONElement :=
  match v with
  | .null => some .bnull
  | .int n => some (.bint n)
  | .string s => some (.bstring s)
  | .seq items => some (.bobject (convert (.seq items)))
  | .map members => some (.bobject (convert (.map members)))
  | .bool _ => none
  | .double _ => none

/-- `encodeElement` with dropped values defaulted, for stating equalities
on lists all of whose values are encodable. -/
def encodeElementD (v : Value) : BSONElement :=
  (encodeElement v).getD .bnull

end Connection

mutual

/-- No boolean and no double element occurs anywhere in this BSON
element. -/
def elementBoolDoubleFree : BSONElement → Bool
  | .bobject fields => fieldsBoolDoubleFree fields
  | .barray fields => fieldsBoolDoubleFree fields
  | .bbool _ => false
  | .bdouble _ => false
  | _ => true
termination_by e => sizeOf e

/-- No boolean and no double element occurs anywhere in this BSON
document. -/
def fieldsBoolDoubleFree : BSONObj → Bool
  | [] => true
  | (_, e) :: rest => elementBoolDoubleFree e && fieldsBoolDoubleFree rest
termination_by o => sizeOf o

end

/-- Key ordering on association-list entries. -/
def keyLt {β : Type} (a b : String × β) : Prop := a.1 < b.1

theorem mem_insertMember {p : String × Value} {k : String} {v : Value}
    {l : List (String × Value)} (hp : p ∈ insertMember k v l) : p = (k, v) ∨ p ∈ l := by
  induction l with
  | nil => simpa [insertMember] using hp
  | cons q rest ih =>
    obtain ⟨k', v'⟩ := q
    simp only [insertMember] at hp
    split at hp
    · exact List.mem_cons.mp hp
    · split at hp
      · rcases List.mem_cons.mp hp with h | h
        · exact Or.inl h
        · exact Or.inr (List.mem_cons_of_mem _ h)
      · rcases List.mem_cons.mp hp with h | h
        · exact Or.inr (by simp [h])
        · rcases ih h with h2 | h2
          · exact Or.inl h2
          · exact Or.inr (List.mem_cons_of_mem _ h2)

theorem pairwise_insertMember {k : String} {v : Value} {l : List (String × Value)}
    (h : l.Pairwise keyLt) : (insertMember k v l).Pairwise keyLt := by
  induction l with
  | nil => simp [insertMember, keyLt]
  | cons q rest ih =>
    obtain ⟨k', v'⟩ := q
    rw [List.pairwise_cons] at h
    obtain ⟨hhead, htail⟩ := h
    simp only [insertMember]
    split
    · rename_i hlt
      refine List.Pairwise.cons ?_ (List.Pairwise.cons hhead htail)
      intro q hq
      rcases List.mem_cons.mp hq with h | h
      · simp only [keyLt, h]
        exact hlt
      · exact lt_trans hlt (hhead q h)
    · split
      · rename_i hne heq
        subst heq
        exact List.Pairwise.cons hhead htail
      · rename_i hnlt hne
        have hgt : k' < k := by
          rcases lt_trichotomy k k' with h | h | h
          · exact absurd h hnlt
          · exact absurd h hne
          · exact h
        refine List.Pairwise.cons ?_ (ih htail)
        intro q hq
        rcases mem_insertMember hq with h | h
        · simpa [keyLt, h] using hgt
        · exact hhead q h

theorem mem_stdMapFrom {p : String × Value} {acc xs : List (String × Value)}
    (hp : p ∈ stdMapFrom acc xs) : p ∈ acc ∨ p ∈ xs := by
  induction xs generalizing acc with
  | nil => exact Or.inl (by simpa [stdMapFrom] using hp)
  | cons q rest ih =>
    obtain ⟨k, v⟩ := q
    simp only [stdMapFrom] at hp
    rcases ih hp with h | h
    · rcases mem_insertMember h with h2 | h2
      · exact Or.inr (by simp [h2])
      · exact Or.inl h2
    · exact Or.inr (List.mem_cons_of_mem _ h)

theorem mem_stdMap {p : String × Value} {xs : List (String × Value)}
    (hp : p ∈ stdMap xs) : p ∈ xs := by
  rcases mem_stdMapFrom hp with h | h
  · simp at h
  · exact h

theorem pairwise_stdMapFrom {acc xs : List (String × Value)}
    (h : acc.Pairwise keyLt) : (stdMapFrom acc xs).Pairwise keyLt := by
  induction xs generalizing acc with
  | nil => simpa [stdMapFrom] using h
  | cons q rest ih =>
    obtain ⟨k, v⟩ := q
    simp only [stdMapFrom]
    exact ih (pairwise_insertMember h)

theorem pairwise_stdMap (xs : List (String × Value)) : (stdMap xs).Pairwise keyLt :=
  pairwise_stdMapFrom (List.Pairwise.nil)

theorem insertMember_append {k : String} {v : Value} {acc : List (String × Value)}
    (h : ∀ p ∈ acc, p.1 < k) : insertMember k v acc = acc ++ [(k, v)] := by
  induction acc with
  | nil => simp [insertMember]
  | cons q rest ih =>
    obtain ⟨k', v'⟩ := q
    have hk : k' < k := h (k', v') (by simp)
    simp only [insertMember]
    rw [if_neg (lt_asymm hk), if_neg (by rintro rfl; exact absurd hk (lt_irrefl k))]
    simp only [List.cons_append, List.cons.injEq, true_and]
    exact ih fun p hp => h p (List.mem_cons_of_mem _ hp)

theorem stdMapFrom_sorted_append {acc xs : List (String × Value)}
    (hxs : xs.Pairwise keyLt) (hcross : ∀ p ∈ acc, ∀ q ∈ xs, p.1 < q.1) :
    stdMapFrom acc xs = acc ++ xs := by
  induction xs generalizing acc with
  | nil => simp [stdMapFrom]
  | cons q rest ih =>
    obtain ⟨k, v⟩ := q
    rw [List.pairwise_cons] at hxs
    obtain ⟨hhead, htail⟩ := hxs
    simp only [stdMapFrom]
    rw [insertMember_append (fun p hp => hcross p hp (k, v) (by simp))]
    rw [ih htail ?_]
    · simp
    · intro p hp q hq
      rcases List.mem_append.mp hp with h | h
      · exact hcross p h q (List.mem_cons_of_mem _ hq)
      · simp at h
        subst h
        exact hhead q hq

theorem stdMap_of_sorted {xs : List (String × Value)} (h : xs.Pairwise keyLt) :
    stdMap xs = xs := by
  simpa [stdMap] using stdMapFrom_sorted_append h (by simp)

theorem stdMap_idem (xs : List (String × Value)) : stdMap (stdMap xs) = stdMap xs :=
  stdMap_of_sorted (pairwise_stdMap xs)

theorem insertMember_map_value {k : String} {v : Value} {l : List (String × Value)}
    (f : Value → Value) :
    insertMember k (f v) (l.map fun p => (p.1, f p.2))
      = (insertMember k v l).map fun p => (p.1, f p.2) := by
  induction l with
  | nil => simp [insertMember]
  | cons q rest ih =>
    obtain ⟨k', v'⟩ := q
    simp only [List.map_cons, insertMember]
    split
    · simp
    · split
      · simp
      · simpa using ih

theorem stdMapFrom_map_value {acc xs : List (String × Value)} (f : Value → Value) :
    stdMapFrom (acc.map fun p => (p.1, f p.2)) (xs.map fun p => (p.1, f p.2))
      = (stdMapFrom acc xs).map fun p => (p.1, f p.2) := by
  induction xs generalizing acc with
  | nil => simp [stdMapFrom]
  | cons q rest ih =>
    obtain ⟨k, v⟩ := q
    simp only [List.map_cons, stdMapFrom]
    rw [insertMember_map_value, ih]

theorem stdMap_map_value (xs : List (String × Value)) (f : Value → Value) :
    stdMap (xs.map fun p => (p.1, f p.2)) = (stdMap xs).map fun p => (p.1, f p.2) := by
  simpa [stdMap] using @stdMapFrom_map_value [] xs f

theorem insertMember_perm {k : String} {v : Value} {l : List (String × Value)}
    (h : k ∉ l.map Prod.fst) : (insertMember k v l).Perm ((k, v) :: l) := by
  induction l with
  | nil => simp [insertMember]
  | cons q rest ih =>
    obtain ⟨k', v'⟩ := q
    simp only [List.map_cons, List.mem_cons] at h
    push_neg at h
    obtain ⟨hne, hrest⟩ := h
    by_cases hlt : k < k'
    · simp only [insertMember, if_pos hlt]
      exact List.Perm.refl _
    · simp only [insertMember, if_neg hlt, if_neg hne]
      exact (List.Perm.cons _ (ih hrest)).trans (List.Perm.swap _ _ _)

theorem stdMapFrom_perm {acc xs : List (String × Value)}
    (h : ((acc ++ xs).map Prod.fst).Nodup) : (stdMapFrom acc xs).Perm (acc ++ xs) := by
  induction xs generalizing acc with
  | nil => simp [stdMapFrom]
  | cons q rest ih =>
    obtain ⟨k, v⟩ := q
    simp only [stdMapFrom]
    have hknotacc : k ∉ acc.map Prod.fst := by
      intro hmem
      have : ¬ ((acc ++ (k, v) :: rest).map Prod.fst).Nodup := by
        simp only [List.map_append, List.map_cons]
        intro hnd
        have := (List.nodup_append.mp hnd).2.2
        exact this hmem (by simp)
      exact this h
    have hperm1 : (insertMember k v acc).Perm ((k, v) :: acc) := insertMember_perm hknotacc
    have hnodup2 : (((insertMember k v acc) ++ rest).map Prod.fst).Nodup := by
      have hp : ((insertMember k v acc) ++ rest).Perm (((k, v) :: acc) ++ rest) :=
        hperm1.append_right rest
      have hp2 : (((insertMember k v acc) ++ rest).map Prod.fst).Perm
          ((((k, v) :: acc) ++ rest).map Prod.fst) := hp.map Prod.fst
      refine hp2.symm.nodup ?_
      have hp3 : ((acc ++ (k, v) :: rest).map Prod.fst).Perm
          ((((k, v) :: acc) ++ rest).map Prod.fst) := by
        refine List.Perm.map Prod.fst ?_
        exact List.perm_middle.trans (by simp)
      exact hp3.nodup h
    exact ((ih hnodup2).trans
      ((insertMember_perm hknotacc).append_right rest)).trans List.perm_middle.symm

theorem stdMap_perm {xs : List (String × Value)} (h : (xs.map Prod.fst).Nodup) :
    (stdMap xs).Perm xs := by
  simpa [stdMap] using @stdMapFrom_perm [] xs (by simpa using h)

open Connection

theorem convertMembers_filterMap (ms : List (String × Value)) :
    convertMembers ms
      = ms.filterMap fun p => (encodeElement p.2).map fun e => (p.1, e) := by
  induction ms with
  | nil => simp [convertMembers]
  | cons p rest ih =>
    obtain ⟨k, v⟩ := p
    cases v <;> simp [convertMembers, encodeElement, ih]

theorem convertMembers_map_of_encodable {ms : List (String × Value)}
    (h : ∀ p ∈ ms, (encodeElement p.2).isSome = true) :
    convertMembers ms = ms.map fun p => (p.1, encodeElementD p.2) := by
  induction ms with
  | nil => simp [convertMembers]
  | cons p rest ih =>
    obtain ⟨k, v⟩ := p
    have hv : (encodeElement v).isSome = true := h (k, v) (by simp)
    have hrest : ∀ p ∈ rest, (encodeElement p.2).isSome = true :=
      fun p hp => h p (List.mem_cons_of_mem _ hp)
    cases v
    case bool b => simp [encodeElement] at hv
    case double bits => simp [encodeElement] at hv
    all_goals simp only [convertMembers, List.map_cons]
    all_goals rw [ih hrest]
    all_goals simp [encodeElementD, encodeElement]

theorem convertItems_keys (items : List Value) (i : Nat) :
    indexKeysFrom ((convertItems items i).map Prod.fst) i = true := by
  induction items generalizing i with
  | nil => simp [convertItems, indexKeysFrom]
  | cons v rest ih =>
    cases v <;> simp [convertItems, indexKeysFrom, ih]

theorem convertItems_values (items : List Value) (i : Nat) :
    (convertItems items i).map Prod.snd = items.filterMap encodeElement := by
  induction items generalizing i with
  | nil => simp [convertItems]
  | cons v rest ih =>
    cases v <;> simp [convertItems, encodeElement, ih]

theorem decodeItems_eq (o : BSONObj) :
    decodeItems o = o.map fun f => convertElement f.2 := by
  induction o with
  | nil => simp [decodeItems]
  | cons f rest ih =>
    obtain ⟨k, e⟩ := f
    simp [decodeItems, ih]

theorem decodeMembers_sorted_append {o : BSONObj} {acc : List (String × Value)}
    (ho : o.Pairwise keyLt) (hcross : ∀ p ∈ acc, ∀ f ∈ o, p.1 < f.1) :
    decodeMembers o acc = acc ++ o.map fun f => (f.1, convertElement f.2) := by
  induction o generalizing acc with
  | nil => simp [decodeMembers]
  | cons f rest ih =>
    obtain ⟨k, e⟩ := f
    rw [List.pairwise_cons] at ho
    obtain ⟨hhead, htail⟩ := ho
    simp only [decodeMembers]
    rw [insertMember_append (fun p hp => hcross p hp (k, e) (by simp))]
    rw [ih htail ?_]
    · simp
    · intro p hp f hf
      rcases List.mem_append.mp hp with h | h
      · exact hcross p h f (List.mem_cons_of_mem _ hf)
      · simp at h
        subst h
        exact hhead f hf

theorem keys_insertMember_self (k : String) (v : Value) (acc : List (String × Value)) :
    k ∈ (insertMember k v acc).map Prod.fst := by
  induction acc with
  | nil => simp [insertMember]
  | cons q rest ih =>
    obtain ⟨k', v'⟩ := q
    simp only [insertMember]
    split
    · simp
    · split
      · simp
      · simpa using Or.inr ih

theorem keys_insertMember_sub {k' k : String} {v : Value} {acc : List (String × Value)}
    (h : k' ∈ acc.map Prod.fst) : k' ∈ (insertMember k v acc).map Prod.fst := by
  induction acc with
  | nil => simp at h
  | cons q rest ih =>
    obtain ⟨k'', v''⟩ := q
    simp only [List.map_cons, List.mem_cons] at h
    simp only [insertMember]
    split
    · rcases h with h | h
      · simp [h]
      · simpa using Or.inr (Or.inr h)
    · split
      · rename_i heq
        subst heq
        rcases h with h | h
        · simp [h]
        · simpa using Or.inr h
      · rcases h with h | h
        · simp [h]
        · simpa using Or.inr (ih h)

theorem mem_decodeMembers {p : String × Value} {o : BSONObj} {acc : List (String × Value)}
    (hp : p ∈ decodeMembers o acc) :
    p ∈ acc ∨ ∃ f ∈ o, p = (f.1, convertElement f.2) := by
  induction o generalizing acc with
  | nil => exact Or.inl (by simpa [decodeMembers] using hp)
  | cons f rest ih =>
    obtain ⟨k, e⟩ := f
    simp only [decodeMembers] at hp
    rcases ih hp with h | h
    · rcases mem_insertMember h with h2 | h2
      · exact Or.inr ⟨(k, e), by simp, by simp [h2]⟩
      · exact Or.inl h2
    · obtain ⟨f, hf, hpf⟩ := h
      exact Or.inr ⟨f, List.mem_cons_of_mem _ hf, hpf⟩

theorem keys_decodeMembers_mono {k' : String} {o : BSONObj} {acc : List (String × Value)}
    (h : k' ∈ acc.map Prod.fst) : k' ∈ (decodeMembers o acc).map Prod.fst := by
  induction o generalizing acc with
  | nil => simpa [decodeMembers] using h
  | cons f rest ih =>
    obtain ⟨k, e⟩ := f
    simp only [decodeMembers]
    exact ih (keys_insertMember_sub h)

theorem keys_decodeMembers {f : String × BSONElement} {o : BSONObj}
    {acc : List (String × Value)} (hf : f ∈ o) :
    f.1 ∈ (decodeMembers o acc).map Prod.fst := by
  induction o generalizing acc with
  | nil => simp at hf
  | cons g rest ih =>
    obtain ⟨k, e⟩ := g
    simp only [decodeMembers]
    rcases List.mem_cons.mp hf with h | h
    · subst h
      exact keys_decodeMembers_mono (keys_insertMember_self _ _ _)
    · exact ih h

theorem roundtrippableItems_mem {items : List Value}
    (h : roundtrippableItems items = true) {v : Value} (hv : v ∈ items) :
    roundtrippable v = true := by
  induction items with
  | nil => simp at hv
  | cons w rest ih =>
    simp only [roundtrippableItems, Bool.and_eq_true] at h
    rcases List.mem_cons.mp hv with h2 | h2
    · subst h2
      exact h.1
    · exact ih h.2 h2

theorem roundtrippableMembers_mem {members : List (String × Value)}
    (h : roundtrippableMembers members = true) {p : String × Value} (hp : p ∈ members) :
    roundtrippable p.2 = true := by
  induction members with
  | nil => simp at hp
  | cons q rest ih =>
    obtain ⟨k, v⟩ := q
    simp only [roundtrippableMembers, Bool.and_eq_true] at h
    rcases List.mem_cons.mp hp with h2 | h2
    · subst h2
      exact h.1
    · exact ih h.2 h2

theorem encodeElement_isSome_of_roundtrippable {v : Value}
    (h : roundtrippable v = true) : (encodeElement v).isSome = true := by
  cases v <;> simp_all [encodeElement, roundtrippable]

theorem normalizeItems_eq_map (items : List Value) :
    normalizeItems items = items.map normalize := by
  induction items with
  | nil => simp [normalizeItems]
  | cons v rest ih => simp [normalizeItems, ih]

theorem normalizeMembers_eq_map (members : List (String × Value)) :
    normalizeMembers members = members.map fun p => (p.1, normalize p.2) := by
  induction members with
  | nil => simp [normalizeMembers]
  | cons p rest ih =>
    obtain ⟨k, v⟩ := p
    simp [normalizeMembers, ih]

theorem convertBson_of_couldBeArray {o : BSONObj} (h : couldBeArray o = true) :
    convertBson o = .seq (o.map fun f => convertElement f.2) := by
  rw [convertBson, if_pos h, decodeItems_eq]

theorem convertBson_of_not_couldBeArray {o : BSONObj} (h : couldBeArray o = false) :
    convertBson o = .map (decodeMembers o []) := by
  rw [convertBson, if_neg (by simp [h])]

theorem sizeOf_snd_lt {p : String × Value} {l : List (String × Value)} (hp : p ∈ l) :
    sizeOf p.2 < sizeOf l := by
  have h1 := List.sizeOf_lt_of_mem hp
  obtain ⟨a, b⟩ := p
  simp at h1 ⊢
  omega

theorem sizeOf_value_pos (v : Value) : 1 ≤ sizeOf v := by
  cases v <;> simp

theorem normalize_convertElement_encodeElement :
    ∀ (n : Nat) (v : Value), sizeOf v ≤ n → roundtrippable v = true →
      ∀ e, encodeElement v = some e → normalize (convertElement e) = normalize v := by
  intro n
  induction n with
  | zero =>
    intro v hv
    exact absurd (lt_of_lt_of_le (sizeOf_value_pos v) hv) (by omega)
  | succ n ih =>
    intro v hsize hrt e he
    cases v with
    | null =>
      obtain rfl : BSONElement.bnull = e := by simpa [encodeElement] using he
      simp [convertElement]
    | bool b => simp [encodeElement] at he
    | double bits => simp [encodeElement] at he
    | int m =>
      obtain rfl : BSONElement.bint m = e := by simpa [encodeElement] using he
      simp [convertElement]
    | string s =>
      obtain rfl : BSONElement.bstring s = e := by simpa [encodeElement] using he
      simp [convertElement]
    | seq items =>
      obtain rfl : BSONElement.bobject (convert (.seq items)) = e := by
        simpa [encodeElement] using he
      have hconv : convert (.seq items) = convertItems items 0 := by
        simp [convert]
      have hrtitems : roundtrippableItems items = true := by
        simpa [roundtrippable] using hrt
      have harr : couldBeArray (convert (.seq items)) = true := by
        rw [hconv]
        simpa [couldBeArray] using convertItems_keys items 0
      have hsz : ∀ w ∈ items, sizeOf w ≤ n := by
        intro w hw
        have h1 := List.sizeOf_lt_of_mem hw
        have h2 : sizeOf (Value.seq items) = 1 + sizeOf items := by simp
        omega
      have hdec : convertElement (BSONElement.bobject (convert (.seq items)))
          = .seq ((items.filterMap encodeElement).map convertElement) := by
        rw [show convertElement (BSONElement.bobject (convert (.seq items)))
              = convertBson (convert (.seq items)) from by rw [convertElement],
            convertBson_of_couldBeArray harr, hconv]
        have : (convertItems items 0).map (fun f => convertElement f.2)
            = ((convertItems items 0).map Prod.snd).map convertElement := by
          simp [List.map_map]
        rw [this, convertItems_values]
      rw [hdec]
      simp only [normalize, normalizeItems_eq_map]
      rw [List.map_map]
      have hlist : ∀ (l : List Value), roundtrippableItems l = true →
          (∀ w ∈ l, sizeOf w ≤ n) →
          (l.filterMap encodeElement).map (normalize ∘ convertElement) = l.map normalize := by
        intro l
        induction l with
        | nil => simp
        | cons w rest ihl =>
          intro hrt2 hs
          simp only [roundtrippableItems, Bool.and_eq_true] at hrt2
          obtain ⟨ew, hew⟩ := Option.isSome_iff_exists.mp
            (encodeElement_isSome_of_roundtrippable hrt2.1)
          simp only [List.filterMap_cons, hew, List.map_cons]
          rw [ihl hrt2.2 fun w2 hw2 => hs w2 (List.mem_cons_of_mem _ hw2)]
          have := ih w (hs w (by simp)) hrt2.1 ew hew
          simp only [Function.comp]
          rw [this]
      rw [hlist items hrtitems hsz]
    | map members =>
      obtain rfl : BSONElement.bobject (convert (.map members)) = e := by
        simpa [encodeElement] using he
      have hconv : convert (.map members) = convertMembers (stdMap members) := by
        simp [convert]
      simp only [roundtrippable, Bool.and_eq_true] at hrt
      obtain ⟨hidx, hmem⟩ := hrt
      rw [Bool.not_eq_eq_eq_not, Bool.not_true] at hidx
      have hvals : ∀ p ∈ stdMap members, (encodeElement p.2).isSome = true := fun p hp =>
        encodeElement_isSome_of_roundtrippable (roundtrippableMembers_mem hmem (mem_stdMap hp))
      have hF : convertMembers (stdMap members)
          = (stdMap members).map fun p => (p.1, encodeElementD p.2) :=
        convertMembers_map_of_encodable hvals
      have hFkeys : (convertMembers (stdMap members)).map Prod.fst
          = (stdMap members).map Prod.fst := by
        rw [hF, List.map_map]
        rfl
      have hnotarr : couldBeArray (convertMembers (stdMap members)) = false := by
        simpa [couldBeArray, hFkeys] using hidx
      have hFsorted : (convertMembers (stdMap members)).Pairwise keyLt := by
        rw [hF, List.pairwise_map]
        exact pairwise_stdMap members
      have hdecm : decodeMembers (convertMembers (stdMap members)) []
          = (convertMembers (stdMap members)).map fun f => (f.1, convertElement f.2) := by
        simpa using decodeMembers_sorted_append hFsorted (by simp)
      rw [show convertElement (BSONElement.bobject (convert (.map members)))
            = convertBson (convert (.map members)) from by rw [convertElement],
          hconv, convertBson_of_not_couldBeArray hnotarr, hdecm, hF, List.map_map]
      simp only [normalize, normalizeMembers_eq_map, List.map_map]
      have hszm : sizeOf members ≤ n := by
        have h2 : sizeOf (Value.map members) = 1 + sizeOf members := by simp
        omega
      have hpoint : ∀ p ∈ stdMap members,
          ((fun q => (q.1, normalize q.2)) ∘ (fun f => (f.1, convertElement f.2))
            ∘ fun q => (q.1, encodeElementD q.2)) p
          = (fun q => (q.1, normalize q.2)) p := by
        intro p hp
        have hrtp := roundtrippableMembers_mem hmem (mem_stdMap hp)
        obtain ⟨ep, hep⟩ := Option.isSome_iff_exists.mp
          (encodeElement_isSome_of_roundtrippable hrtp)
        have hsz2 : sizeOf p.2 ≤ n :=
          le_trans (Nat.le_of_lt (sizeOf_snd_lt (mem_stdMap hp))) hszm
        simp only [Function.comp]
        rw [show encodeElementD p.2 = ep from by simp [encodeElementD, hep]]
        rw [ih p.2 hsz2 hrtp ep hep]
      rw [List.map_congr_left hpoint]
      rw [stdMap_map_value, stdMap_map_value, stdMap_idem]

/-- The round trip on the domain where it holds, phrased on the two
converter overloads. -/
theorem decode_encode_of_roundtrippable (v : Value) (hrt : roundtrippable v = true)
    (hc : v.isComposite = true) : semEq (convertBson (convert v)) v := by
  have h := normalize_convertElement_encodeElement (sizeOf v) v le_rfl hrt
  cases v with
  | seq items =>
    have h2 := h (.bobject (convert (.seq items))) (by simp [encodeElement])
    simpa [semEq, convertElement] using h2
  | map members =>
    have h2 := h (.bobject (convert (.map members))) (by simp [encodeElement])
    simpa [semEq, convertElement] using h2
  | null => simp [Value.isComposite] at hc
  | bool b => simp [Value.isComposite] at hc
  | int m => simp [Value.isComposite] at hc
  | double bits => simp [Value.isComposite] at hc
  | string s => simp [Value.isComposite] at hc

instance : IsAntisymm (String × Value) keyLt :=
  ⟨fun _ _ h1 h2 => absurd h1 (lt_asymm h2)⟩

theorem stdMap_eq_of_perm {xs ys : List (String × Value)} (hperm : xs.Perm ys)
    (hnodup : (xs.map Prod.fst).Nodup) : stdMap xs = stdMap ys := by
  have hnodup2 : (ys.map Prod.fst).Nodup := (hperm.map Prod.fst).nodup hnodup
  have hp : (stdMap xs).Perm (stdMap ys) :=
    ((stdMap_perm hnodup).trans hperm).trans (stdMap_perm hnodup2).symm
  exact List.eq_of_perm_of_sorted hp (pairwise_stdMap xs) (pairwise_stdMap ys)

theorem convertMembers_keys_sublist (ms : List (String × Value)) :
    ((convertMembers ms).map Prod.fst).Sublist (ms.map Prod.fst) := by
  induction ms with
  | nil => simp [convertMembers]
  | cons p rest ih =>
    obtain ⟨k, v⟩ := p
    cases v <;> simp only [convertMembers, List.map_cons]
    case bool b => exact ih.cons k
    case double bits => exact ih.cons k
    all_goals exact ih.cons₂ k

theorem boolDoubleFree_convert : ∀ (n : Nat) (v : Value), sizeOf v ≤ n →
    fieldsBoolDoubleFree (convert v) = true := by
  intro n
  induction n with
  | zero =>
    intro v hv
    exact absurd (lt_of_lt_of_le (sizeOf_value_pos v) hv) (by omega)
  | succ n ih =>
    have hitems : ∀ (l : List Value), (∀ w ∈ l, sizeOf w ≤ n) →
        ∀ i, fieldsBoolDoubleFree (convertItems l i) = true := by
      intro l
      induction l with
      | nil => intro _ i; simp [convertItems, fieldsBoolDoubleFree]
      | cons w rest ihl =>
        intro hs i
        have hw : sizeOf w ≤ n := hs w (by simp)
        have hrest : ∀ w2 ∈ rest, sizeOf w2 ≤ n :=
          fun w2 hw2 => hs w2 (List.mem_cons_of_mem _ hw2)
        cases w <;>
          simp [convertItems, fieldsBoolDoubleFree, elementBoolDoubleFree,
            ihl hrest, ih _ hw]
    have hmembers : ∀ (l : List (String × Value)), (∀ p ∈ l, sizeOf p.2 ≤ n) →
        fieldsBoolDoubleFree (convertMembers l) = true := by
      intro l
      induction l with
      | nil => intro _; simp [convertMembers, fieldsBoolDoubleFree]
      | cons p rest ihl =>
        intro hs
        obtain ⟨k, v⟩ := p
        have hv : sizeOf v ≤ n := hs (k, v) (by simp)
        have hrest : ∀ p2 ∈ rest, sizeOf p2.2 ≤ n :=
          fun p2 hp2 => hs p2 (List.mem_cons_of_mem _ hp2)
        cases v <;>
          simp [convertMembers, fieldsBoolDoubleFree, elementBoolDoubleFree,
            ihl hrest, ih _ hv]
    intro v hsize
    cases v with
    | seq items =>
      have hs : ∀ w ∈ items, sizeOf w ≤ n := by
        intro w hw
        have h1 := List.sizeOf_lt_of_mem hw
        have h2 : sizeOf (Value.seq items) = 1 + sizeOf items := by simp
        omega
      rw [show convert (.seq items) = convertItems items 0 from by simp [convert]]
      exact hitems items hs 0
    | map members =>
      have hs : ∀ p ∈ stdMap members, sizeOf p.2 ≤ n := by
        intro p hp
        have h1 := sizeOf_snd_lt (mem_stdMap hp)
        have h2 : sizeOf (Value.map members) = 1 + sizeOf members := by simp
        omega
      rw [show convert (.map members) = convertMembers (stdMap members) from by simp [convert]]
      exact hmembers (stdMap members) hs
    | null => simp [convert, fieldsBoolDoubleFree]
    | bool b => simp [convert, fieldsBoolDoubleFree]
    | int m => simp [convert, fieldsBoolDoubleFree]
    | double bits => simp [convert, fieldsBoolDoubleFree]
    | string s => simp [convert, fieldsBoolDoubleFree]

/-- C1 (counterexample): the round trip fails as stated, already on the
sequence holding a single boolean — a tag the claim lists as allowed.
`Connection::convert` drops the boolean (its switch has no case for it),
so the value decodes back to an empty sequence. -/
theorem roundtrip_claim_counterexample :
    ¬ semEq (convertBson (convert (.seq [.bool true]))) (.seq [.bool true]) := by
  have h1 : convert (.seq [.bool true]) = [] := by simp [convert, convertItems]
  have h2 : convertBson ([] : BSONObj) = .seq [] := by
    simp [convertBson, couldBeArray, indexKeysFrom, decodeItems]
  rw [h1, h2]
  simp [semEq, normalize, normalizeItems]

/-- C1 (amended): decode of encode is semantically equal to the original
for every composite DynamicValue on the converter's round-trip domain:
built only from {Null, Int, String, Sequence, Mapping} (Bool and Double
are dropped by the encoder) and containing no mapping whose `std::map`
view presents contiguous zero-based integer keys "0", "1", ... — in
particular no empty mapping — since such a mapping's wire form is claimed
back by `couldBeArray` as a Sequence.  Semantic equality ignores mapping
key order and preserves sequence order. -/
theorem roundtrip_decode_encode (v : Value) (hrt : roundtrippable v = true)
    (hc : v.isComposite = true) : semEq (convertBson (convert v)) v :=
  decode_encode_of_roundtrippable v hrt hc

/-- C1 (witness): the round trip at the concrete mapping {"a": 1}. -/
theorem roundtrip_decode_encode_witness :
    semEq (convertBson (convert (.map [("a", .int 1)]))) (.map [("a", .int 1)]) := by
  refine roundtrip_decode_encode _ ?_ ?_
  · simp [roundtrippable, roundtrippableMembers, stdMap, stdMapFrom, insertMember,
      indexKeysFrom]
    decide
  · simp [Value.isComposite]

/-- C2 (counterexample): encoding a sequence holding a boolean and a
double, and a mapping holding a boolean and a double, emits no wire field
at all for them, contradicting the claim that a boolean field and a
64-bit float field are emitted. -/
theorem encode_bool_double_counterexample :
    convert (.seq [.bool true, .double 0]) = []
      ∧ convert (.map [("a", .bool true), ("b", .double 0)]) = [] := by
  constructor
  · simp [convert, convertItems]
  · simp [convert, convertMembers, stdMap, stdMapFrom, insertMember]
    split
    · simp [convertMembers]
    · simp [convertMembers]

/-- C2 (amended): Bool and Double elements nested inside a Sequence or
Mapping are silently dropped by encode — no wire field of any kind is
emitted for them; indeed no document produced by encode ever contains a
boolean or 64-bit float field anywhere. -/
theorem encode_never_emits_bool_or_double_field (v : Value) :
    fieldsBoolDoubleFree (convert v) = true :=
  boolDoubleFree_convert (sizeOf v) v le_rfl

/-- C3: the runCommand operation resolves its Deferred; in particular a
driver result document {ok:0, error:"bad cmd"} makes the delivered
resolution fire the Deferred's failure reaction exactly once, with the
message "bad cmd", for every database, command document, and Deferred
with a failure reaction registered. -/
theorem runCommand_error_fires_failure (db : String) (cmd : Value)
    (d : Deferred Value) (h : d.failureCallback = true) :
    ((runCommand db cmd
        (.result [("ok", .bint 0), ("error", .bstring "bad cmd")])).resolution.deliver d).filter
      Fired.isFailure = [.failure "bad cmd"] := by
  have hok : okFieldIsZero [("ok", .bint 0), ("error", .bstring "bad cmd")] = true := by
    simp [okFieldIsZero, List.lookup]
  have herr : errorFieldOf [("ok", .bint 0), ("error", .bstring "bad cmd")] = "bad cmd" := by
    simp [errorFieldOf, List.lookup]
  simp only [runCommand, hok, if_pos]
  simp only [Resolution.deliver, Deferred.failure, herr, h, if_pos]
  cases hcc : d.completeCallback <;> simp [Fired.isFailure]

/-- C3 (witness): the scenario at database "db", command {ping:1}, and a
Deferred with only a failure reaction registered. -/
theorem runCommand_error_fires_failure_witness :
    ((runCommand "db" (.map [("ping", .int 1)])
        (.result [("ok", .bint 0), ("error", .bstring "bad cmd")])).resolution.deliver
      ⟨false, true, false⟩).filter Fired.isFailure = [.failure "bad cmd"] :=
  runCommand_error_fires_failure "db" (.map [("ping", .int 1)]) ⟨false, true, false⟩ rfl

/-- C4: a null cursor from the driver's query call makes the worker
schedule exactly one callback invocation, carrying the empty value and
the message "Unspecified connection error"; no document is read off the
cursor, and no exception ever escapes the query worker closure for any
driver behaviour. -/
theorem query_null_cursor_failure (collection : String) (q : Value) :
    (queryWorker collection q .nullCursor).callbacks
        = [(Value.null, some "Unspecified connection error")]
      ∧ (queryWorker collection q .nullCursor).docsRead = 0
      ∧ ∀ b, (queryWorker collection q b).escaped = false := by
  refine ⟨rfl, rfl, fun b => ?_⟩
  cases b <;> rfl

/-- C5: for callback-taking insert, update and remove whose driver call
does not throw, the callback is scheduled exactly once: with NULL when
the driver's last-error string is empty, and with exactly that string
otherwise. -/
theorem write_last_error_to_callback (collection : String) (doc q : Value)
    (upsert multi lim : Bool) (b : WriteBehavior) (h : b.throws = none) :
    (insertWorker collection doc b).callbacks
        = [if b.lastError = "" then none else some b.lastError]
      ∧ (updateWorker collection q doc upsert multi b).callbacks
        = [if b.lastError = "" then none else some b.lastError]
      ∧ (removeWorker collection q lim b).callbacks
        = [if b.lastError = "" then none else some b.lastError] := by
  obtain ⟨t, e⟩ := b
  cases h
  refine ⟨?_, ?_, ?_⟩ <;>
    · by_cases he : e = "" <;>
        simp [insertWorker, updateWorker, removeWorker, he]

/-- C5 (witness): an insert, update and remove against a driver returning
the non-empty last error "oops" each schedule exactly one callback
carrying "oops". -/
theorem write_last_error_to_callback_witness :
    (insertWorker "users" (.map [("name", .string "a")]) ⟨none, "oops"⟩).callbacks
        = [some "oops"]
      ∧ (updateWorker "users" (.map []) (.map [("name", .string "a")])
          false false ⟨none, "oops"⟩).callbacks = [some "oops"]
      ∧ (removeWorker "users" (.map []) false ⟨none, "oops"⟩).callbacks = [some "oops"] := by
  have h := write_last_error_to_callback "users" (.map [("name", .string "a")])
    (.map []) false false false ⟨none, "oops"⟩ rfl
  simpa using h

/-- C6: the fire-and-forget insert, update and remove worker closures
never schedule any callback, never fetch the driver's last-error status,
and never let an exception escape, whatever the driver does. -/
theorem fire_and_forget_silent (collection : String) (doc q : Value)
    (upsert multi lim : Bool) (b : WriteBehavior) :
    ((insertWorkerNoCallback collection doc b).callbacks = []
        ∧ (insertWorkerNoCallback collection doc b).fetchedLastError = false
        ∧ (insertWorkerNoCallback collection doc b).escaped = false)
      ∧ ((updateWorkerNoCallback collection q doc upsert multi b).callbacks = []
        ∧ (updateWorkerNoCallback collection q doc upsert multi b).fetchedLastError = false
        ∧ (updateWorkerNoCallback collection q doc upsert multi b).escaped = false)
      ∧ ((removeWorkerNoCallback collection q lim b).callbacks = []
        ∧ (removeWorkerNoCallback collection q lim b).fetchedLastError = false
        ∧ (removeWorkerNoCallback collection q lim b).escaped = false) := by
  obtain ⟨t, e⟩ := b
  cases t <;>
    simp [insertWorkerNoCallback, updateWorkerNoCallback, removeWorkerNoCallback]

/-- C7: the decoder chooses the composite result shape solely by the
could-be-array inspection: a document that could be an array decodes to
the Sequence of its decoded elements in document order, and any other
document decodes to a Mapping whose entries all come from decoding the
document's fields and whose keys cover every field name. -/
theorem decode_shape_by_couldBeArray (o : BSONObj) :
    (couldBeArray o = true → convertBson o = .seq (o.map fun f => convertElement f.2))
      ∧ (couldBeArray o = false → ∃ m, convertBson o = .map m
          ∧ (∀ p ∈ m, ∃ f ∈ o, p = (f.1, convertElement f.2))
          ∧ (∀ f ∈ o, f.1 ∈ m.map Prod.fst)) := by
  constructor
  · exact fun h => convertBson_of_couldBeArray h
  · intro h
    refine ⟨decodeMembers o [], convertBson_of_not_couldBeArray h, ?_, ?_⟩
    · intro p hp
      rcases mem_decodeMembers hp with h2 | h2
      · simp at h2
      · exact h2
    · intro f hf
      exact keys_decodeMembers hf

/-- C7 (witness): the two shapes at concrete documents: {"0": 7} decodes
to the sequence [7], and {"x": null} decodes to the mapping {"x": null}. -/
theorem decode_shape_by_couldBeArray_witness :
    convertBson [("0", .bint 7)] = .seq [.int 7]
      ∧ convertBson [("x", .bnull)] = .map [("x", Value.null)] := by
  constructor
  · have h := (decode_shape_by_couldBeArray [("0", .bint 7)]).1 (by decide)
    rw [h]
    simp [convertElement]
  · have h := (decode_shape_by_couldBeArray [("x", .bnull)]).2 (by decide)
    obtain ⟨m, hm, _, _⟩ := h
    rw [convertBson_of_not_couldBeArray (by decide)]
    simp [decodeMembers, insertMember, convertElement]

/-- C8: a DynamicValue whose top-level tag is neither Sequence nor
Mapping encodes to the empty wire document. -/
theorem encode_scalar_root_empty (v : Value) (h : v.isComposite = false) :
    convert v = [] := by
  cases v <;> simp_all [convert, Value.isComposite]

/-- C8 (witness): the integer 5 at the root encodes to the empty
document. -/
theorem encode_scalar_root_empty_witness : convert (.int 5) = [] :=
  encode_scalar_root_empty (.int 5) rfl

/-- C9: for one internal resolution of a Deferred: resolving with success
fires no failure reaction and fires the success reaction exactly once iff
one is registered; resolving with failure fires no success reaction and
fires the failure reaction exactly once iff one is registered; in either
case the completion reaction fires exactly once iff registered, and it is
always the last reaction to fire; a bare complete() fires only the
completion reaction. -/
theorem deferred_single_resolution (α : Type) (d : Deferred α) (a : α) (e : String) :
    ((d.success a).filter Fired.isFailure = []
        ∧ (d.success a).filter Fired.isSuccess
          = (if d.successCallback then [.success a] else [])
        ∧ (d.success a).filter Fired.isComplete
          = (if d.completeCallback then [.complete] else [])
        ∧ (d.success a).getLast? = (if d.completeCallback then some .complete
            else if d.successCallback then some (.success a) else none))
      ∧ ((d.failure e).filter Fired.isSuccess = []
        ∧ (d.failure e).filter Fired.isFailure
          = (if d.failureCallback then [.failure e] else [])
        ∧ (d.failure e).filter Fired.isComplete
          = (if d.completeCallback then [.complete] else [])
        ∧ (d.failure e).getLast? = (if d.completeCallback then some .complete
            else if d.failureCallback then some (.failure e) else none))
      ∧ d.complete = (if d.completeCallback then [.complete] else []) := by
  obtain ⟨s, f, c⟩ := d
  cases s <;> cases f <;> cases c <;>
    simp [Deferred.success, Deferred.failure, Deferred.complete,
      Fired.isSuccess, Fired.isFailure, Fired.isComplete]

/-- C10: the encoder emits a mapping's fields in strictly ascending
lexicographic key order; two mappings that are permutations of one
another (with no duplicate keys) encode to the identical document; and a
sequence's elements pass through in their given order (each supported
element in place, unsupported ones dropped). -/
theorem encode_mapping_sorted_sequence_ordered :
    (∀ xs : List (String × Value),
        ((convert (.map xs)).map Prod.fst).Pairwise (· < ·))
      ∧ (∀ xs ys : List (String × Value), xs.Perm ys → (xs.map Prod.fst).Nodup →
          convert (.map xs) = convert (.map ys))
      ∧ (∀ items : List Value,
          (convert (.seq items)).map Prod.snd = items.filterMap encodeElement) := by
  refine ⟨fun xs => ?_, fun xs ys hperm hnodup => ?_, fun items => ?_⟩
  · rw [show convert (.map xs) = convertMembers (stdMap xs) from by simp [convert]]
    have hsorted : ((stdMap xs).map Prod.fst).Pairwise (· < ·) :=
      List.pairwise_map.mpr (pairwise_stdMap xs)
    exact List.Pairwise.sublist (convertMembers_keys_sublist (stdMap xs)) hsorted
  · rw [show convert (.map xs) = convertMembers (stdMap xs) from by simp [convert],
        show convert (.map ys) = convertMembers (stdMap ys) from by simp [convert],
        stdMap_eq_of_perm hperm hnodup]
  · rw [show convert (.seq items) = convertItems items 0 from by simp [convert]]
    exact convertItems_values items 0

/-- C10 (witness): the mapping built as {"b": 1, "a": 2} and its
permutation {"a": 2, "b": 1} encode to the same document, whose keys are
in ascending order; and a two-element sequence passes its elements
through in order. -/
theorem encode_mapping_sorted_sequence_ordered_witness :
    convert (.map [("b", .int 1), ("a", .int 2)])
        = convert (.map [("a", .int 2), ("b", .int 1)])
      ∧ (convert (.seq [.int 1, .string "x"])).map Prod.snd
        = [.bint 1, .bstring "x"] := by
  constructor
  · exact encode_mapping_sorted_sequence_ordered.2.1 _ _
      (List.Perm.swap _ _ _) (by simp)
  · rw [encode_mapping_sorted_sequence_ordered.2.2 [.int 1, .string "x"]]
    simp [encodeElement]

end ReactMongo
